import Mathlib

/-! Race-derived random byte generator (`catslashdevslashrandom.cpp`)

A shallow embedding of the program's three pieces of code:

* the worker loop `e` (`quantum += inc; quantum %= mod;`),
* the interrupt handler `stop` (`loop = false;`),
* the sampler/packer loop of `main`
  (`c << 1; c = c + (quantum%2); if(i==7) std::cout << c; i = (i+1)%8;`).

C++ `int` is modelled by `Int` with an explicit two's-complement wrap to 32 bits
where an addition could leave the range; C++ `%` truncates towards zero and is
`Int.tmod`.  Threads are modelled twice: `Sys` interleaves whole loop iterations, each run
atomically; `Micro` interleaves the single loads and stores of `quantum` by the workers, which
the program performs without any synchronisation.
-/

namespace CatDevRandom

/-! ## Machine integers -/

/-- Two's-complement reduction of an integer to the range of a 32-bit `int`. -/
def wrapInt32 (x : Int) : Int := (x + 2147483648) % 4294967296 - 2147483648

/-- Two's-complement reduction of an integer to the range of a signed 8-bit `char`. -/
def wrapInt8 (x : Int) : Int := (x + 128) % 256 - 128

/-- The byte that `std::cout << c` writes for a `char` of value `c`: its 8-bit pattern. -/
def byteOf (c : Int) : Int := c % 256

/-! ## Shared state: `int quantum; bool loop = true;` -/

/-- The two globals of the program. -/
structure Globals where
  quantum : Int
  loop : Bool
  deriving DecidableEq, Repr

/-- Globals at program start: `quantum` is zero-initialised, `loop = true`. -/
def Globals.init : Globals := { quantum := 0, loop := true }

/-! ## Worker `e` -/

/-- Body of the loop of `e`: `quantum += inc; quantum %= mod;`. -/
def e_body (inc mod quantum : Int) : Int :=
  let quantum := wrapInt32 (quantum + inc)
  Int.tmod quantum mod

/-- One iteration of `while(loop) { ... }` in `e`: the body runs when `loop` reads true,
otherwise the worker leaves the loop and the globals stay as they are. -/
def e_iter (inc mod : Int) (g : Globals) : Globals :=
  if g.loop then { g with quantum := e_body inc mod g.quantum } else g

/-! ## Interrupt handler `stop` -/

/-- Handler `stop(int signum)`: `loop = false;`. -/
def stop (_signum : Int) (g : Globals) : Globals := { g with loop := false }

/-! ## `main`: worker descriptors -/

/-- The array `int primes[]` of `main`. -/
def primes : List Int := [73, 79, 83, 89, 97, 101, 103, 107, 109, 113, 127, 131, 137, 139, 149, 151]

/-- The arguments `(inc, mod)` of the threads created by
`for(int i=0; i < 16; i++) threads[i] = new std::thread(e, primes[i], 2027);`. -/
def workers : List (Int × Int) :=
  (List.range 16).map (fun i => (primes.getD i 0, 2027))

/-! ## `main`: sampler / packer loop -/

/-- Locals of the sampler together with the bytes written to standard output so far. -/
structure Sampler where
  i : Int
  c : Int
  out : List Int
  deriving DecidableEq, Repr

/-- Locals at entry of the sampler loop: `int i = 0; char c = 0;`, nothing written. -/
def Sampler.init : Sampler := { i := 0, c := 0, out := [] }

/-- Body of the sampler loop for the value `quantum` read in this iteration:
`c << 1;` (the shifted value is computed and dropped),
`c = c + (quantum%2);`, `if(i==7) std::cout << c;`, `i = (i+1)%8;`.
The `char` is taken to be signed; with an unsigned `char` the bytes written are the same,
since only the 8-bit pattern of `c` reaches the output. -/
def main_body (quantum : Int) (s : Sampler) : Sampler :=
  let _shifted := s.c * 2
  let c := wrapInt8 (s.c + Int.tmod quantum 2)
  let out := if s.i = 7 then s.out ++ [byteOf c] else s.out
  let i := Int.tmod (s.i + 1) 8
  { i := i, c := c, out := out }

/-- The sampler loop run on the successive values of `quantum` it reads. -/
def main_loop (samples : List Int) (s : Sampler) : Sampler :=
  samples.foldl (fun s quantum => main_body quantum s) s

/-- Bytes written by the sampler when it reads `samples` and then leaves the loop. -/
def emitted (samples : List Int) : List Int := (main_loop samples Sampler.init).out

/-! ## Interleaved execution of the whole program -/

/-- One atomic step of the running program. -/
inductive Event where
  | worker (k : Fin 16)
  | sample
  | interrupt (signum : Int)
  deriving DecidableEq, Repr

/-- The state of the whole program: the globals and the sampler. -/
structure Sys where
  g : Globals
  s : Sampler
  deriving DecidableEq, Repr

/-- State of the program when the threads have been created. -/
def Sys.init : Sys := { g := Globals.init, s := Sampler.init }

/-- One step: worker `k` runs one iteration of `e(primes[k], 2027)`, or the sampler runs one
iteration of its `while(loop)` loop, or the interrupt handler runs.  Each iteration is taken
as a whole, with no other thread acting inside it. -/
def Sys.step (σ : Sys) : Event → Sys
  | .worker k => { σ with g := e_iter (primes.getD k.val 0) 2027 σ.g }
  | .sample => if σ.g.loop then { σ with s := main_body σ.g.quantum σ.s } else σ
  | .interrupt signum => { σ with g := stop signum σ.g }

/-- The program run along a schedule of steps. -/
def Sys.run (sched : List Event) (σ : Sys) : Sys := sched.foldl Sys.step σ

/-! ## Interleaving of the single accesses to `quantum` -/

/-- Where a worker stands in `while(loop) { quantum += inc; quantum %= mod; }`: at the test of
`loop`, before the load or the store of `quantum += inc`, before the load or the store of
`quantum %= mod`, or past the loop. -/
inductive PC where
  | test
  | loadAdd
  | storeAdd
  | loadMod
  | storeMod
  | done
  deriving DecidableEq, Repr

/-- A worker between two accesses to the globals: its position and the value of `quantum`
it loaded last. -/
structure Thread where
  pc : PC
  reg : Int
  deriving DecidableEq, Repr

/-- The globals together with the 16 workers, worker `k` running `e(primes[k], 2027)`. -/
structure Micro where
  quantum : Int
  loop : Bool
  threads : Fin 16 → Thread

/-- State when the threads have been created: `quantum = 0`, `loop = true`, every worker at
the test of its loop. -/
def Micro.init : Micro :=
  { quantum := 0, loop := true, threads := fun _ => ⟨PC.test, 0⟩ }

/-- Worker `k` performs its next access: it tests `loop`; or loads `quantum` for
`quantum += inc`; or stores the loaded value plus `inc`; or loads `quantum` for
`quantum %= mod`; or stores the loaded value reduced by `mod`.  Nothing orders these accesses
between workers, as `quantum` is a plain `int` written without locking. -/
def Micro.step (μ : Micro) (k : Fin 16) : Micro :=
  match (μ.threads k).pc with
  | PC.test =>
    let next := if μ.loop then PC.loadAdd else PC.done
    { μ with threads := Function.update μ.threads k ⟨next, (μ.threads k).reg⟩ }
  | PC.loadAdd =>
    { μ with threads := Function.update μ.threads k ⟨PC.storeAdd, μ.quantum⟩ }
  | PC.storeAdd =>
    { μ with
      quantum := wrapInt32 ((μ.threads k).reg + primes.getD k.val 0)
      threads := Function.update μ.threads k ⟨PC.loadMod, (μ.threads k).reg⟩ }
  | PC.loadMod =>
    { μ with threads := Function.update μ.threads k ⟨PC.storeMod, μ.quantum⟩ }
  | PC.storeMod =>
    { μ with
      quantum := Int.tmod (μ.threads k).reg 2027
      threads := Function.update μ.threads k ⟨PC.test, (μ.threads k).reg⟩ }
  | PC.done => μ

/-- The workers run along a schedule: the list names the worker that acts next. -/
def Micro.run (sched : List (Fin 16)) (μ : Micro) : Micro := sched.foldl Micro.step μ

/-- Parity of a sample: `counter mod 2`. -/
def parity (x : Int) : Int := x % 2

/-- Byte `k` (counted from 0) of the stream the documentation describes: the parities of
samples `8k .. 8k+7` packed most-significant-bit-first,
`sum over j in 0..7 of parity(sample[8k+j]) * 2^(7-j)`. -/
def specByte (samples : List Int) (k : Nat) : Int :=
  ((List.range 8).map (fun j => parity (samples.getD (8 * k + j) 0) * 2 ^ (7 - j))).sum

/-- Number of odd values in a list of samples. -/
def oddCount (samples : List Int) : Nat := samples.countP (fun x => x % 2 = 1)

/-- Sum of the values `quantum%2` that the sampler adds to `c` over a list of samples. -/
def bitSum (samples : List Int) : Int := (samples.map (fun q => Int.tmod q 2)).sum

/-! ## Lemmas on the machine integers -/

theorem wrapInt32_of_inRange (x : Int) (hlo : -2147483648 ≤ x) (hhi : x ≤ 2147483647) :
    wrapInt32 x = x := by
  unfold wrapInt32
  omega

theorem wrapInt8_add_wrapInt8 (x y : Int) : wrapInt8 (wrapInt8 x + y) = wrapInt8 (x + y) := by
  unfold wrapInt8
  omega

theorem byteOf_wrapInt8 (x : Int) : byteOf (wrapInt8 x) = x % 256 := by
  unfold byteOf wrapInt8
  omega

/-! ## Lemmas on the sampler loop -/

theorem main_loop_snoc (samples : List Int) (q : Int) (s : Sampler) :
    main_loop (samples ++ [q]) s = main_body q (main_loop samples s) := by
  simp [main_loop, List.foldl_append]

theorem bitSum_snoc (samples : List Int) (q : Int) :
    bitSum (samples ++ [q]) = bitSum samples + Int.tmod q 2 := by
  simp [bitSum]

/-- Closed form of the sampler state after reading `samples` from the initial state. -/
theorem main_loop_init (samples : List Int) :
    main_loop samples Sampler.init =
      { i := ((samples.length % 8 : Nat) : Int),
        c := wrapInt8 (bitSum samples),
        out := (List.range (samples.length / 8)).map
          (fun k => bitSum (samples.take (8 * (k + 1))) % 256) } := by
  induction samples using List.reverseRecOn with
  | nil => rfl
  | append_singleton xs q ih =>
    rw [main_loop_snoc, ih]
    have htake : ∀ k, k < xs.length / 8 →
        (xs ++ [q]).take (8 * (k + 1)) = xs.take (8 * (k + 1)) := by
      intro k hk
      apply List.take_append_of_le_length
      omega
    have hmap : (List.range (xs.length / 8)).map
          (fun k => bitSum ((xs ++ [q]).take (8 * (k + 1))) % 256) =
        (List.range (xs.length / 8)).map
          (fun k => bitSum (xs.take (8 * (k + 1))) % 256) := by
      apply List.map_congr_left
      intro k hk
      rw [htake k (List.mem_range.mp hk)]
    have hi : Int.tmod (((xs.length % 8 : Nat) : Int) + 1) 8
        = (((xs.length + 1) % 8 : Nat) : Int) := by
      rw [Int.tmod_eq_emod (by omega) (by omega)]
      omega
    by_cases h7 : xs.length % 8 = 7
    · have hdiv : (xs.length + 1) / 8 = xs.length / 8 + 1 := by omega
      have hfull : (xs ++ [q]).take (8 * (xs.length / 8 + 1)) = xs ++ [q] := by
        apply List.take_of_length_le
        simp
        omega
      simp only [main_body, List.length_append, List.length_singleton, hdiv, List.range_succ,
        List.map_append, List.map_cons, List.map_nil, hmap, hfull, hi, wrapInt8_add_wrapInt8,
        byteOf_wrapInt8, bitSum_snoc, h7]
      simp
      omega
    · have hdiv : (xs.length + 1) / 8 = xs.length / 8 := by omega
      have hne : ¬ (((xs.length % 8 : Nat) : Int) = 7) := by omega
      simp only [main_body, List.length_append, List.length_singleton, hdiv, hmap, hi,
        wrapInt8_add_wrapInt8, bitSum_snoc, hne, if_false]

theorem emitted_eq (samples : List Int) :
    emitted samples = (List.range (samples.length / 8)).map
      (fun k => bitSum (samples.take (8 * (k + 1))) % 256) := by
  simp [emitted, main_loop_init]

theorem bitSum_eq_oddCount (samples : List Int) (hnn : ∀ q ∈ samples, 0 ≤ q) :
    bitSum samples = (oddCount samples : Int) := by
  induction samples with
  | nil => rfl
  | cons q qs ih =>
    have hq : 0 ≤ q := hnn q (List.mem_cons_self q qs)
    have hqs : bitSum qs = (oddCount qs : Int) :=
      ih (fun x hx => hnn x (List.mem_cons_of_mem q hx))
    have hsum : bitSum (q :: qs) = Int.tmod q 2 + bitSum qs := by simp [bitSum]
    rw [hsum, hqs, Int.tmod_eq_emod hq (by omega)]
    by_cases hodd : q % 2 = 1
    · simp [oddCount, List.countP_cons, hodd]
      omega
    · have hev : q % 2 = 0 := by omega
      simp [oddCount, List.countP_cons, hev]

/-- Byte number `k` (counted from 1) written by the sampler on non-negative samples. -/
theorem emitted_getElem (samples : List Int) (hnn : ∀ q ∈ samples, 0 ≤ q) (k : Nat)
    (hk : 1 ≤ k) (hlen : 8 * k ≤ samples.length) :
    (emitted samples)[k - 1]? = some (((oddCount (samples.take (8 * k)) % 256 : Nat) : Int)) := by
  have hlt : k - 1 < samples.length / 8 := by omega
  have hk1 : k - 1 + 1 = k := by omega
  have hnn2 : ∀ q ∈ samples.take (8 * k), 0 ≤ q := fun q hq => hnn q (List.mem_of_mem_take hq)
  rw [emitted_eq, List.getElem?_map, List.getElem?_range hlt]
  simp only [Option.map_some', hk1, bitSum_eq_oddCount _ hnn2]
  norm_cast

/-! ## Lemmas on the worker and on the interleaved run -/

theorem primes_bounds : ∀ p ∈ primes, 73 ≤ p ∧ p ≤ 151 := by decide

theorem primes_getD_mem : ∀ k : Fin 16, primes.getD k.val 0 ∈ primes := by decide

theorem e_body_exact (inc m c : Int) (hc : 0 ≤ c) (hinc : 0 ≤ inc)
    (hrep : c + inc ≤ 2147483647) (hm : 0 ≤ m) : e_body inc m c = (c + inc) % m := by
  unfold e_body
  simp only []
  rw [wrapInt32_of_inRange (c + inc) (by omega) hrep, Int.tmod_eq_emod (by omega) hm]

theorem e_body_range (inc c : Int) (hinc : inc ∈ primes) (hlo : 0 ≤ c) (hhi : c < 2027) :
    0 ≤ e_body inc 2027 c ∧ e_body inc 2027 c < 2027 := by
  have hb := primes_bounds inc hinc
  rw [e_body_exact inc 2027 c hlo (by omega) (by omega) (by omega)]
  omega

/-- The invariant of the shared counter: it lies in `[0, 2027)`. -/
theorem step_range (σ : Sys) (ev : Event)
    (h : 0 ≤ σ.g.quantum ∧ σ.g.quantum < 2027) :
    0 ≤ (σ.step ev).g.quantum ∧ (σ.step ev).g.quantum < 2027 := by
  cases ev with
  | worker k =>
    simp only [Sys.step, e_iter]
    split
    · exact e_body_range _ _ (primes_getD_mem k) h.1 h.2
    · exact h
  | sample =>
    simp only [Sys.step]
    split <;> exact h
  | interrupt signum => exact h

theorem run_range (sched : List Event) (σ : Sys)
    (h : 0 ≤ σ.g.quantum ∧ σ.g.quantum < 2027) :
    0 ≤ (Sys.run sched σ).g.quantum ∧ (Sys.run sched σ).g.quantum < 2027 := by
  induction sched generalizing σ with
  | nil => exact h
  | cons ev rest ih => exact ih (σ.step ev) (step_range σ ev h)

theorem init_range : 0 ≤ Sys.init.g.quantum ∧ Sys.init.g.quantum < 2027 := by decide

/-! ## Worker step, counter range and overflow -/

/-- C2: with atomic steps, starting from counter 0 the counter is in `[0, 2027)` after any finite
schedule of steps of the 16 workers (interleaved with sampler iterations and interrupts), and
one step `quantum += inc; quantum %= 2027` with `inc` in `primes` maps `[0, 2027)` into itself. -/
theorem counter_in_range :
    (∀ sched : List Event,
      0 ≤ (Sys.run sched Sys.init).g.quantum ∧ (Sys.run sched Sys.init).g.quantum < 2027) ∧
    (∀ c inc : Int, 0 ≤ c → c < 2027 → inc ∈ primes →
      0 ≤ e_body inc 2027 c ∧ e_body inc 2027 c < 2027) :=
  ⟨fun sched => run_range sched Sys.init init_range,
   fun c inc hlo hhi hinc => e_body_range inc c hinc hlo hhi⟩

theorem counter_in_range_witness :
    (0 ≤ (Sys.run [Event.worker 15, Event.worker 15] Sys.init).g.quantum ∧
      (Sys.run [Event.worker 15, Event.worker 15] Sys.init).g.quantum < 2027) ∧
    ((0 : Int) ≤ 2026 ∧ (2026 : Int) < 2027 ∧ (151 : Int) ∈ primes ∧
      0 ≤ e_body 151 2027 2026 ∧ e_body 151 2027 2026 < 2027) :=
  ⟨counter_in_range.1 [Event.worker 15, Event.worker 15],
   by decide, by decide, by decide,
   counter_in_range.2 2026 151 (by decide) (by decide) (by decide)⟩

/-- C4: for a counter `c >= 0`, an increment `inc > 0` and a modulus `m > 0` with `c + inc`
representable in `int`, one worker step sets the counter to `(c + inc) mod m`; with modulus 7,
starting at 0 and stepping with increments 3, 5, 3 the counter takes the values 3, 1, 4. -/
theorem worker_step_exact (c inc m : Int) (hc : 0 ≤ c) (hinc : 0 < inc) (hm : 0 < m)
    (hrep : c + inc ≤ 2147483647) :
    e_body inc m c = (c + inc) % m ∧
    List.scanl (fun q w => e_body w 7 q) 0 [3, 5, 3] = [0, 3, 1, 4] :=
  ⟨e_body_exact inc m c hc (by omega) hrep (by omega), by decide⟩

theorem worker_step_exact_witness :
    (0 : Int) ≤ 3 ∧ (0 : Int) < 5 ∧ (0 : Int) < 7 ∧ (3 : Int) + 5 ≤ 2147483647 ∧
    (e_body 5 7 3 = (3 + 5) % 7 ∧
      List.scanl (fun q w => e_body w 7 q) 0 [3, 5, 3] = [0, 3, 1, 4]) :=
  ⟨by decide, by decide, by decide, by decide,
   worker_step_exact 3 5 7 (by decide) (by decide) (by decide) (by decide)⟩

/-- C6: `main` launches exactly 16 workers, worker `i` gets `primes[i]`, the 16 increments are
pairwise distinct primes, and every worker gets the modulus 2027, which is prime. -/
theorem workers_descriptors :
    workers.length = 16 ∧ primes.length = 16 ∧ workers.map Prod.fst = primes ∧
    primes.Nodup ∧ (∀ p ∈ primes, 0 < p ∧ Nat.Prime p.natAbs) ∧
    (∀ w ∈ workers, w.2 = 2027) ∧ Nat.Prime 2027 := by
  refine ⟨by decide, by decide, by decide, by decide, ?_, by decide, by norm_num⟩
  intro p hp
  simp only [primes, List.mem_cons, List.mem_singleton, List.not_mem_nil, or_false] at hp
  rcases hp with h | h | h | h | h | h | h | h | h | h | h | h | h | h | h | h <;>
    subst h <;> exact ⟨by decide, by norm_num⟩

theorem workers_descriptors_witness :
    (127 : Int) ∈ primes ∧ ((0 : Int) < 127 ∧ Nat.Prime (127 : Int).natAbs) ∧
    ((127, 2027) ∈ workers ∧ ((127, 2027) : Int × Int).2 = 2027) :=
  ⟨by decide, workers_descriptors.2.2.2.2.1 127 (by decide),
   by decide, workers_descriptors.2.2.2.2.2.1 (127, 2027) (by decide)⟩

/-! ## Interrupt handler -/

/-- C8: the handler `stop` sets the stop flag (`loop` is false) and leaves the counter
unchanged; afterwards an iteration of a worker and an iteration of the sampler find their loop
condition false and change nothing; a second delivery gives the same state. -/
theorem stop_idempotent (signum signum2 : Int) (g : Globals) :
    (stop signum g).loop = false ∧
    (stop signum g).quantum = g.quantum ∧
    (∀ inc m : Int, e_iter inc m (stop signum g) = stop signum g) ∧
    (∀ s : Sampler, Sys.step { g := stop signum g, s := s } Event.sample
      = { g := stop signum g, s := s }) ∧
    stop signum2 (stop signum g) = stop signum g := by
  refine ⟨rfl, rfl, ?_, ?_, rfl⟩
  · intro inc m
    simp [e_iter, stop]
  · intro s
    simp [Sys.step, stop]

/-! ## Sampler / packer -/

/-- C1: when worker 0 steps, the sampler reads, worker 1 steps and the sampler reads seven more
times, the sampler has read 73, 152, 152, 152, 152, 152, 152, 152 and written the single
byte 1, while the eight parities packed most-significant-bit-first give 128: the emitted byte is
not the MSB-first packing of its eight samples. -/
theorem emitted_ne_specByte :
    (Sys.run (Event.worker 0 :: Event.sample :: Event.worker 1 :: List.replicate 7 Event.sample)
      Sys.init).s.out = [1] ∧
    emitted [73, 152, 152, 152, 152, 152, 152, 152] = [1] ∧
    specByte [73, 152, 152, 152, 152, 152, 152, 152] 0 = 128 ∧
    (emitted [73, 152, 152, 152, 152, 152, 152, 152])[0]?
      ≠ some (specByte [73, 152, 152, 152, 152, 152, 152, 152] 0) := by
  decide

/-- C3: an iteration of the sampler writes a byte exactly when the bit-position counter `i` is 7;
after `n` iterations exactly `n / 8` bytes have been written, `i` equals `n mod 8` and lies in
`0..7`, and the output equals the output after `8 * (n / 8)` iterations, so the bits of an
incomplete group are not written when the loop stops. -/
theorem sampler_emits_every_eighth (samples : List Int) :
    (∀ (q : Int) (s : Sampler),
      (s.i = 7 → (main_body q s).out = s.out ++ [byteOf (main_body q s).c]) ∧
      (s.i ≠ 7 → (main_body q s).out = s.out)) ∧
    (emitted samples).length = samples.length / 8 ∧
    (main_loop samples Sampler.init).i = ((samples.length % 8 : Nat) : Int) ∧
    0 ≤ (main_loop samples Sampler.init).i ∧ (main_loop samples Sampler.init).i ≤ 7 ∧
    emitted samples = emitted (samples.take (8 * (samples.length / 8))) := by
  have hi : (main_loop samples Sampler.init).i = ((samples.length % 8 : Nat) : Int) := by
    rw [main_loop_init]
  refine ⟨?_, ?_, hi, by omega, by omega, ?_⟩
  · intro q s
    constructor
    · intro h7
      simp [main_body, h7]
    · intro h7
      simp [main_body, h7]
  · simp [emitted_eq]
  · have hlen : (samples.take (8 * (samples.length / 8))).length / 8 = samples.length / 8 := by
      rw [List.length_take]
      omega
    rw [emitted_eq, emitted_eq, hlen]
    apply List.map_congr_left
    intro k hk
    have hk2 : k < samples.length / 8 := List.mem_range.mp hk
    have hmin : min (8 * (k + 1)) (8 * (samples.length / 8)) = 8 * (k + 1) := by omega
    rw [List.take_take, hmin]

theorem sampler_emits_every_eighth_witness :
    ((7 : Int) = 7 →
      (main_body 3 { i := 7, c := 4, out := [2] }).out
        = [2] ++ [byteOf (main_body 3 { i := 7, c := 4, out := [2] }).c]) ∧
    (emitted [1, 1, 0, 1, 0, 0, 1, 1, 1, 0, 1]).length = 11 / 8 ∧
    emitted [1, 1, 0, 1, 0, 0, 1, 1, 1, 0, 1] = emitted [1, 1, 0, 1, 0, 0, 1, 1] :=
  ⟨((sampler_emits_every_eighth []).1 3 { i := 7, c := 4, out := [2] }).1,
   (sampler_emits_every_eighth [1, 1, 0, 1, 0, 0, 1, 1, 1, 0, 1]).2.1,
   (sampler_emits_every_eighth [1, 1, 0, 1, 0, 0, 1, 1, 1, 0, 1]).2.2.2.2.2⟩

/-- C10: for non-negative samples and every `k >= 1` for which `8k` samples were read, the
`k`-th byte written by the sampler is the number of odd values among the first `8k` samples,
reduced modulo 256; the first byte written lies between 0 and 8. -/
theorem emitted_is_odd_count (samples : List Int) (hnn : ∀ q ∈ samples, 0 ≤ q) (k : Nat)
    (hk : 1 ≤ k) (hlen : 8 * k ≤ samples.length) :
    (emitted samples)[k - 1]? = some (((oddCount (samples.take (8 * k)) % 256 : Nat) : Int)) ∧
    ∃ b : Int, (emitted samples)[0]? = some b ∧ 0 ≤ b ∧ b ≤ 8 := by
  refine ⟨emitted_getElem samples hnn k hk hlen, ?_⟩
  refine ⟨_, emitted_getElem samples hnn 1 (le_refl 1) (by omega), by omega, ?_⟩
  have hle : oddCount (samples.take (8 * 1)) ≤ (samples.take (8 * 1)).length :=
    List.countP_le_length _
  have hlen8 : (samples.take (8 * 1)).length ≤ 8 := by
    rw [List.length_take]
    omega
  omega

theorem emitted_is_odd_count_witness :
    (∀ q ∈ [3, 2026, 8, 1, 0, 0, 5, 4, 7, 7, 7, 7, 7, 7, 7, 7, 9], (0 : Int) ≤ q) ∧
    1 ≤ 2 ∧ 8 * 2 ≤ [3, 2026, 8, 1, 0, 0, 5, 4, 7, 7, 7, 7, 7, 7, 7, 7, (9 : Int)].length ∧
    ((emitted [3, 2026, 8, 1, 0, 0, 5, 4, 7, 7, 7, 7, 7, 7, 7, 7, 9])[2 - 1]?
      = some (((oddCount
          ([3, 2026, 8, 1, 0, 0, 5, 4, 7, 7, 7, 7, 7, 7, 7, 7, 9].take (8 * 2)) % 256 : Nat) : Int)) ∧
     ∃ b : Int, (emitted [3, 2026, 8, 1, 0, 0, 5, 4, 7, 7, 7, 7, 7, 7, 7, 7, 9])[0]? = some b ∧
       0 ≤ b ∧ b ≤ 8) :=
  ⟨by decide, by decide, by decide,
   emitted_is_odd_count [3, 2026, 8, 1, 0, 0, 5, 4, 7, 7, 7, 7, 7, 7, 7, 7, 9] (by decide) 2
     (by decide) (by decide)⟩

/-- C7: for every byte value `b` in `0..255` there is a finite sequence of counter values in
`[0, 2027)` on which the sampler writes a byte equal to `b`. -/
theorem every_byte_reachable (b : Int) (hlo : 0 ≤ b) (hhi : b ≤ 255) :
    ∃ samples : List Int, (∀ q ∈ samples, 0 ≤ q ∧ q < 2027) ∧ b ∈ emitted samples := by
  refine ⟨List.replicate b.toNat 1 ++ List.replicate (256 - b.toNat) 0, ?_, ?_⟩
  · intro q hq
    rcases List.mem_append.mp hq with h | h
    · rw [List.eq_of_mem_replicate h]
      decide
    · rw [List.eq_of_mem_replicate h]
      decide
  · have hb : b.toNat ≤ 255 := by omega
    have hlen : (List.replicate b.toNat (1 : Int) ++ List.replicate (256 - b.toNat) 0).length
        = 256 := by
      simp
      omega
    have hnn : ∀ q ∈ List.replicate b.toNat (1 : Int) ++ List.replicate (256 - b.toNat) 0,
        0 ≤ q := by
      intro q hq
      rcases List.mem_append.mp hq with h | h
      · have hq1 := List.eq_of_mem_replicate h
        omega
      · have hq0 := List.eq_of_mem_replicate h
        omega
    have hget := emitted_getElem _ hnn 32 (by omega) (by omega)
    have htake : (List.replicate b.toNat (1 : Int) ++ List.replicate (256 - b.toNat) 0).take
        (8 * 32) = List.replicate b.toNat (1 : Int) ++ List.replicate (256 - b.toNat) 0 := by
      apply List.take_of_length_le
      omega
    have hcount : oddCount (List.replicate b.toNat (1 : Int) ++ List.replicate (256 - b.toNat) 0)
        = b.toNat := by
      simp [oddCount, List.countP_append, List.countP_replicate]
    rw [htake, hcount] at hget
    have hval : ((b.toNat % 256 : Nat) : Int) = b := by omega
    rw [hval] at hget
    exact List.getElem?_mem hget

theorem every_byte_reachable_witness :
    (0 : Int) ≤ 255 ∧ (255 : Int) ≤ 255 ∧
    ∃ samples : List Int, (∀ q ∈ samples, 0 ≤ q ∧ q < 2027) ∧ 255 ∈ emitted samples :=
  ⟨by decide, by decide, every_byte_reachable 255 (by decide) (by decide)⟩

/-! ## Dependence of the output on the interleaving -/

/-- C9: there are two interleavings of worker steps and sampler iterations, from the same
initial state, whose emitted byte streams differ already in their first byte; hence no byte
value is the first byte of every run. -/
theorem output_depends_on_schedule :
    (∃ sched1 sched2 : List Event, ∃ b1 b2 : Int,
      (Sys.run sched1 Sys.init).s.out.head? = some b1 ∧
      (Sys.run sched2 Sys.init).s.out.head? = some b2 ∧ b1 ≠ b2) ∧
    (∀ b : Int, ∃ sched : List Event, ∃ b1 : Int,
      (Sys.run sched Sys.init).s.out.head? = some b1 ∧ b1 ≠ b) := by
  have h1 : (Sys.run (List.replicate 8 Event.sample) Sys.init).s.out.head? = some 0 := by
    decide
  have h2 : (Sys.run (Event.worker 0 :: List.replicate 8 Event.sample) Sys.init).s.out.head?
      = some 8 := by
    decide
  refine ⟨⟨_, _, 0, 8, h1, h2, by decide⟩, ?_⟩
  intro b
  by_cases hb : b = 0
  · exact ⟨_, 8, h2, by omega⟩
  · exact ⟨_, 0, h1, fun h => hb h.symm⟩

/-! ## Overflow under interleaved loads and stores -/

theorem micro_run_cons (k : Fin 16) (rest : List (Fin 16)) (μ : Micro) :
    Micro.run (k :: rest) μ = Micro.run rest (μ.step k) := rfl

theorem micro_run_nil (μ : Micro) : Micro.run [] μ = μ := rfl

theorem step_test (μ : Micro) (k : Fin 16) (hpc : (μ.threads k).pc = PC.test)
    (hloop : μ.loop = true) :
    μ.step k = { μ with threads := Function.update μ.threads k ⟨PC.loadAdd, (μ.threads k).reg⟩ } := by
  simp [Micro.step, hpc, hloop]

theorem step_loadAdd (μ : Micro) (k : Fin 16) (hpc : (μ.threads k).pc = PC.loadAdd) :
    μ.step k = { μ with threads := Function.update μ.threads k ⟨PC.storeAdd, μ.quantum⟩ } := by
  simp [Micro.step, hpc]

theorem step_storeAdd (μ : Micro) (k : Fin 16) (hpc : (μ.threads k).pc = PC.storeAdd) :
    μ.step k = { μ with
      quantum := wrapInt32 ((μ.threads k).reg + primes.getD k.val 0)
      threads := Function.update μ.threads k ⟨PC.loadMod, (μ.threads k).reg⟩ } := by
  simp [Micro.step, hpc]

theorem step_loadMod (μ : Micro) (k : Fin 16) (hpc : (μ.threads k).pc = PC.loadMod) :
    μ.step k = { μ with threads := Function.update μ.threads k ⟨PC.storeMod, μ.quantum⟩ } := by
  simp [Micro.step, hpc]

theorem step_storeMod (μ : Micro) (k : Fin 16) (hpc : (μ.threads k).pc = PC.storeMod) :
    μ.step k = { μ with
      quantum := Int.tmod (μ.threads k).reg 2027
      threads := Function.update μ.threads k ⟨PC.test, (μ.threads k).reg⟩ } := by
  simp [Micro.step, hpc]

theorem micro_iteration (μ : Micro) (k : Fin 16) (hpc : (μ.threads k).pc = PC.test)
    (hloop : μ.loop = true) :
    (Micro.run [k, k, k, k, k] μ).quantum = e_body (primes.getD k.val 0) 2027 μ.quantum := by
  rw [micro_run_cons, step_test μ k hpc hloop]
  rw [micro_run_cons, step_loadAdd _ k (by simp)]
  rw [micro_run_cons, step_storeAdd _ k (by simp)]
  rw [micro_run_cons, step_loadMod _ k (by simp)]
  rw [micro_run_cons, step_storeMod _ k (by simp)]
  simp [micro_run_nil, e_body]

end CatDevRandom
